import Mathlib

/-!
Verification development for the frekui/opaque Go library, an implementation
of the OPAQUE asymmetric password-authenticated key exchange.

The Go sources are shallowly embedded as Lean definitions:

* byte strings are `List Nat` (each entry one byte value),
* `math/big` integers are `Nat` (all values that matter are non-negative;
  the group-membership check `0 < x` rejects zero exactly as the Go code
  rejects non-positive wire integers),
* `big.Int.Exp` is `powMod`, `big.Int.ModInverse` is `modInverse`,
  `big.Int.Bytes` (minimal big-endian encoding) is `minBytes`,
  `big.Int.BitLen` is `bitLen`; each is implemented with fuel so that the
  kernel can evaluate it, and related to the mathematical operation by the
  lemmas proved below,
* the SHA-256 / HKDF / HMAC / AES / RSA / PEM primitives from the Go
  standard library and golang.org/x/crypto are not part of this repository;
  they are abstracted as the fields of a `Prims` record, with the facts a
  proof needs about them (output lengths, AES decryption inverting
  encryption, RSA verification accepting honest signatures, the envelope
  codec round-tripping) taken as explicit hypotheses,
* randomness (blinding scalars, salts, ephemeral DH keys, IVs, RSA key
  generation) is passed in as explicit arguments: each embedded function
  receives the values that the Go code samples from `crypto/rand`.

CBC mode (`crypto/cipher.NewCBCEncrypter` / `NewCBCDecrypter`) is embedded
concretely (`cbcEnc` / `cbcDec`) over the abstract AES block function,
because `authenc.AuthEnc` issues two `CryptBlocks` calls against one
stateful encrypter and the chaining between the calls matters.
-/

/-! ## Arbitrary-precision helpers (math/big)

`powModFuel` is plain square-and-multiply; `powModB` processes the exponent
in base 65536 so that kernel evaluation needs only about bitlen/16 nested
reduction steps, which keeps `decide` within the interpreter stack even for
2048-bit exponents. -/

/-- Square-and-multiply modular exponentiation, structurally recursive on fuel. -/
def powModFuel : Nat → Nat → Nat → Nat → Nat
  | 0, _, _, m => 1 % m
  | f + 1, b, e, m =>
    if e = 0 then 1 % m
    else
      let h := powModFuel f (b * b % m) (e / 2) m
      if e % 2 = 1 then b * h % m else h

/-- Base-65536 modular exponentiation; shallow recursion depth for kernel evaluation. -/
def powModB : Nat → Nat → Nat → Nat → Nat
  | 0, _, _, m => 1 % m
  | f + 1, b, e, m =>
    if e = 0 then 1 % m
    else
      let h := powModB f (powModFuel 17 b 65536 m) (e / 65536) m
      powModFuel 17 b (e % 65536) m * h % m

/-- Modelling of `big.Int.Exp` (modular exponentiation) on naturals. -/
def powMod (b e m : Nat) : Nat := powModB (e + 1) b e m

/-- Radix-2 bit length helper for values below 2^17. -/
def bitLenFuel : Nat → Nat → Nat
  | 0, _ => 0
  | f + 1, n => if n = 0 then 0 else bitLenFuel f (n / 2) + 1

/-- Base-65536 bit length, shallow recursion depth. -/
def bitLenB : Nat → Nat → Nat
  | 0, _ => 0
  | f + 1, n => if n < 65536 then bitLenFuel 17 n else bitLenB f (n / 65536) + 16

/-- Modelling of `big.Int.BitLen`. -/
def bitLen (n : Nat) : Nat := bitLenB (n + 1) n

/-- Fuel-driven minimal big-endian byte string of a natural number. -/
def minBytesFuel : Nat → Nat → List Nat
  | 0, _ => []
  | f + 1, n => if n = 0 then [] else minBytesFuel f (n / 256) ++ [n % 256]

/-- Modelling of `big.Int.Bytes`: minimal big-endian bytes, empty for zero. -/
def minBytes (n : Nat) : List Nat := minBytesFuel n n

/-- Value of a big-endian byte string (the abstraction function for `minBytes`). -/
def beVal (l : List Nat) : Nat := l.foldl (fun acc d => acc * 256 + d) 0

/-- Extended Euclid with fuel: returns (gcd a b, x, y) with a*x + b*y = gcd a b. -/
def egcdFuel : Nat → Nat → Nat → Nat × Int × Int
  | 0, _, b => (b, 0, 1)
  | f + 1, a, b =>
    if a = 0 then (b, 0, 1)
    else
      let r := egcdFuel f (b % a) a
      (r.1, r.2.2 - ((b / a : Nat) : Int) * r.2.1, r.2.1)

/-- Extended Euclid. -/
def egcd (a b : Nat) : Nat × Int × Int := egcdFuel (a + 1) a b

/-- Modelling of `big.Int.ModInverse`: the representative in [0, n) of the
Bezout coefficient; meaningful when `Nat.gcd a n = 1`. -/
def modInverse (a n : Nat) : Nat :=
  (((egcd a n).2.1 % (n : Int) + (n : Int)) % (n : Int)).toNat

/-! ## internal/pkg/authenc (authenc.go)

AES-128-CBC with HMAC-SHA-256 in encrypt-then-MAC. The AES block function,
the HKDF stream and HMAC are abstract (`Prims`); CBC chaining, PKCS#7
padding and the message layout IV || ciphertext || authtag are concrete. -/

/-- Byte-wise XOR of two equal-length byte strings. -/
def xorBytes (a b : List Nat) : List Nat := List.zipWith (fun x y => x ^^^ y) a b

/-- The Go error values that the embedded functions can return.

`msg s` models `errors.New s` / a fixed `fmt.Errorf` string; the named
constructors model the distinguished failures of `authenc.AuthDec`
(`authtagMismatch` is the package-level `AuthtagMismatch` value), the
envelope decode errors and `rsa.VerifyPSS` errors. `padPanic` models the
`removePadding` panics. -/
inductive OError where
  | msg (s : String)
  | badKeyLen (n : Nat)
  | tooShort
  | invalidLen
  | authtagMismatch
  | padPanic
  | decodeFail
  | rsaVerifyFail
deriving DecidableEq

-- Decidable equality for `Except`, used to evaluate concrete protocol runs
-- inside witnesses.
deriving instance DecidableEq for Except

/-- Abstract cryptographic primitives used by the Go code but implemented
outside this repository (crypto/sha256, crypto/hmac, crypto/aes,
golang.org/x/crypto/hkdf, crypto/rsa, encoding/pem + crypto/x509).

`hash` is SHA-256; `hkdf ikm n` is the first `n` bytes of the
HKDF-SHA-256 stream seeded with `ikm` (nil salt, nil info); `hmac key m`
is HMAC-SHA-256; `aesEnc`/`aesDec` are the AES-128 block functions keyed
by the first argument; `hashToGroupFn` abstracts `hashToGroup`
(dhoprf.go), the HKDF-seeded rejection sampler H' whose output lies in
[1, p-1]; `rsaSign priv digest tape` / `rsaVerify pub digest sig` are
RSASSA-PSS; `pubOf` maps an RSA private key to its public key; `pemPub`
is the PEM encoding of an RSA public key (used by `computeDhMac`);
`encodeEnv privU pubS` / `decodeEnv` are `encodeEnvU` / `decodeEnvU`
(envu.go), the two-PEM-block envelope codec. RSA keys are identifiers of
type Nat. -/
structure Prims where
  hash : List Nat → List Nat
  hkdf : List Nat → Nat → List Nat
  hmac : List Nat → List Nat → List Nat
  aesEnc : List Nat → List Nat → List Nat
  aesDec : List Nat → List Nat → List Nat
  hashToGroupFn : List Nat → Nat
  rsaSign : Nat → List Nat → List Nat → List Nat
  rsaVerify : Nat → List Nat → List Nat → Bool
  pubOf : Nat → Nat
  pemPub : Nat → List Nat
  encodeEnv : Nat → Nat → List Nat
  decodeEnv : List Nat → Option (Nat × Nat)

/-- Embedding of `authenc.addPadding`: allocate
`blockSize * (len/blockSize + 1)` bytes, copy the input, fill the tail
with the byte `blockSize - len % blockSize`. -/
def addPadding (blockSize : Nat) (input : List Nat) : List Nat :=
  let outLen := blockSize * (input.length / blockSize + 1)
  let b := blockSize - input.length % blockSize
  input ++ List.replicate (outLen - input.length) b

/-- Embedding of `authenc.removePadding`; the three Go panics are `none`. -/
def removePadding (blockSize : Nat) (input : List Nat) : Option (List Nat) :=
  if input.length % blockSize ≠ 0 then none
  else if input.length = 0 then none
  else
    let b := (input.getLast?).getD 0
    if blockSize < b then none
    else some (input.take (input.length - b))

/-- CBC encryption over an abstract block function `E`; `prev` is the
chaining state (initially the IV), blocks are 16 bytes. Structural fuel
so the kernel can evaluate it; callers pass the input length as fuel. -/
def cbcEncFuel (E : List Nat → List Nat) : Nat → List Nat → List Nat → List Nat
  | 0, _, _ => []
  | f + 1, prev, pt =>
    if pt = [] then []
    else
      let c := E (xorBytes (pt.take 16) prev)
      c ++ cbcEncFuel E f c (pt.drop 16)

/-- Embedding of `cipher.NewCBCEncrypter(...).CryptBlocks` starting from state `prev`. -/
def cbcEnc (E : List Nat → List Nat) (prev pt : List Nat) : List Nat :=
  cbcEncFuel E pt.length prev pt

/-- CBC decryption over an abstract block function `D`. -/
def cbcDecFuel (D : List Nat → List Nat) : Nat → List Nat → List Nat → List Nat
  | 0, _, _ => []
  | f + 1, prev, ct =>
    if ct = [] then []
    else
      let p := xorBytes (D (ct.take 16)) prev
      p ++ cbcDecFuel D f (ct.take 16) (ct.drop 16)

/-- Embedding of `cipher.NewCBCDecrypter(...).CryptBlocks` starting from state `prev`. -/
def cbcDec (D : List Nat → List Nat) (prev ct : List Nat) : List Nat :=
  cbcDecFuel D ct.length prev ct

/-- Chaining state of a CBC encrypter after producing ciphertext `ct`
(the IV if nothing was encrypted yet, else the last ciphertext block). -/
def lastState (iv ct : List Nat) : List Nat :=
  if ct = [] then iv else ct.drop (ct.length - 16)

/-- Embedding of `authenc.AuthEnc`. The IV that Go reads from the random
source is the `iv` argument. The two `CryptBlocks` calls of the Go code
(all full blocks of the plaintext, then the padded final block) are kept
separate; the second continues from the chaining state of the first. -/
def authEnc (pr : Prims) (iv key plaintext : List Nat) : Except OError (List Nat) :=
  if key.length ≠ 16 then .error (.badKeyLen key.length)
  else
    let kdf := pr.hkdf key 32
    let cbcKey := kdf.take 16
    let hmacKey := kdf.drop 16
    let numBlocks := plaintext.length / 16 + 1
    let firstPart := plaintext.take ((numBlocks - 1) * 16)
    let lastBlock := addPadding 16 (plaintext.drop ((numBlocks - 1) * 16))
    let ct1 := cbcEnc (pr.aesEnc cbcKey) iv firstPart
    let ct2 := cbcEnc (pr.aesEnc cbcKey) (lastState iv ct1) lastBlock
    let authtag := pr.hmac hmacKey (iv ++ (ct1 ++ ct2))
    .ok (iv ++ (ct1 ++ ct2) ++ authtag)

/-- Embedding of `authenc.AuthDec`. Input layout: IV (16) || ciphertext ||
authtag (32). Checks key length, a 48-byte minimum, 16-divisibility, then
the HMAC over IV || ciphertext, then CBC-decrypts and unpads. -/
def authDec (pr : Prims) (key input : List Nat) : Except OError (List Nat) :=
  if key.length ≠ 16 then .error (.badKeyLen key.length)
  else if input.length < 3 * 16 then .error .tooShort
  else if input.length % 16 ≠ 0 then .error .invalidLen
  else
    let iv := input.take 16
    let ciphertext := (input.drop 16).take (input.length - 48)
    let authtag := input.drop (input.length - 32)
    let kdf := pr.hkdf key 32
    let cbcKey := kdf.take 16
    let hmacKey := kdf.drop 16
    if pr.hmac hmacKey (iv ++ ciphertext) ≠ authtag then .error .authtagMismatch
    else
      match removePadding 16 (cbcDec (pr.aesDec cbcKey) iv ciphertext) with
      | some plain => .ok plain
      | none => .error .padPanic

/-! ## internal/pkg/dh (dh.go)

The group Z^*_p for the RFC 3526 2048-bit MODP prime, generator 2. The
`Group` type of package dh is embedded as `DhGroup`; its operations keep
the Go names. -/

/-- Embedding of `dh.Group`: generator `G` and modulus `P`. -/
structure DhGroup where
  G : Nat
  P : Nat
deriving DecidableEq

/-- The RFC 3526 2048-bit MODP prime (dh.go, `init`). -/
def P2048 : Nat := 0xFFFFFFFFFFFFFFFFC90FDAA22168C234C4C6628B80DC1CD129024E088A67CC74020BBEA63B139B22514A08798E3404DDEF9519B3CD3A431B302B0A6DF25F14374FE1356D6D51C245E485B576625E7EC6F44C42E9A637ED6B0BFF5CB6F406B7EDEE386BFB5A899FA5AE9F24117C4B1FE649286651ECE45B3DC2007CB8A163BF0598DA48361C55D39A69163FA8FD24CF5F83655D23DCA3AD961C62F356208552BB9ED529077096966D670C354E4ABC9804F1746C08CA18217C32905E462E36CE3BE39E772C180E86039B2783A2EC07A28FB5C55DF06F4C52C9DE2BCBF6955817183995497CEA956AE515D2261898FA051015728E5A8AACAA68FFFFFFFFFFFFFFFF

/-- Embedding of `dh.Rfc3526_2048`. -/
def Rfc3526_2048 : DhGroup := { G := 2, P := P2048 }

/-- Embedding of the package-level `dhGroup` used by package opaque. -/
def dhGroup : DhGroup := Rfc3526_2048

/-- Embedding of `dh.Group.Bytes`: reduce mod P, take the minimal
big-endian bytes, left-pad with zeros to ceil(BitLen(P)/8) bytes. -/
def DhGroup.Bytes (g : DhGroup) (x : Nat) : List Nat :=
  let z := x % g.P
  let b := minBytes z
  let bytelen := (bitLen g.P + 7) / 8
  List.replicate (bytelen - b.length) 0 ++ b

/-- Embedding of `dh.IsInGroup`: 0 < x < p. -/
def isInGroup (x p : Nat) : Bool := 0 < x && x < p

/-- Embedding of `dh.IsInSmallSubgroup`: x = 1 or x^2 mod p = 1. -/
def isInSmallSubgroup (x p : Nat) : Bool := x == 1 || powMod x 2 p == 1

/-- Embedding of `dh.SharedSecret`: SHA-256 of the minimal `big.Int.Bytes`
encoding of otherPubKey^privKey mod p. -/
def sharedSecret (pr : Prims) (g : DhGroup) (privKey otherPubKey : Nat) : List Nat :=
  pr.hash (minBytes (powMod otherPubKey privKey g.P))

/-- Refinement target written from the words of the specification: SHA-256
of the fixed-width (canonical, left-zero-padded) encoding of
otherPubKey^privKey mod p. Compare with `sharedSecret`, which follows the
source. -/
def sharedSecretSpec (pr : Prims) (g : DhGroup) (privKey otherPubKey : Nat) : List Nat :=
  pr.hash (g.Bytes (powMod otherPubKey privKey g.P))

/-- Embedding of `dh.GeneratePublicKey`. -/
def generatePublicKey (g : DhGroup) (privKey : Nat) : Nat :=
  powMod g.G privKey g.P

/-! ## dhoprf.go: the DH-OPRF protocol steps -/

/-- Embedding of `dhOprf1` (client). The blinding scalar `r` is the value
the Go code samples with `GeneratePrivateKey`; the Go retry loop
(executed when `a` lands in a small subgroup) is modelled by returning
`none`, in which case the Go code tries again with a fresh `r`. -/
def dhOprf1 (pr : Prims) (x : List Nat) (r : Nat) : Option (Nat × Nat) :=
  let hPrime := pr.hashToGroupFn x
  let a := hPrime * powMod dhGroup.G r dhGroup.P % dhGroup.P
  if isInSmallSubgroup a dhGroup.P then none else some (a, r)

/-- Embedding of `dhOprf2` (server): check a ∈ Z^*_p and a outside the
small subgroups, then return v = g^k and b = a^k. -/
def dhOprf2 (a k : Nat) : Except OError (Nat × Nat) :=
  if ¬isInGroup a dhGroup.P then .error (.msg "a is not in D-H group")
  else if isInSmallSubgroup a dhGroup.P then .error (.msg "a is in a small subgroup")
  else
    .ok (powMod dhGroup.G k dhGroup.P, powMod a k dhGroup.P)

/-- Embedding of `dhOprf3` (client): check v and b, compute
z = b * (v^r)^(-1) mod p, output H(x || Bytes(v) || Bytes(z)). -/
def dhOprf3 (pr : Prims) (x : List Nat) (v b r : Nat) : Except OError (List Nat) :=
  if ¬isInGroup v dhGroup.P then .error (.msg "v is not in D-H group")
  else if isInSmallSubgroup v dhGroup.P then .error (.msg "v is in a small subgroup")
  else if ¬isInGroup b dhGroup.P then .error (.msg "b is not in D-H group")
  else if isInSmallSubgroup b dhGroup.P then .error (.msg "b is in a small subgroup")
  else
    let z := b * modInverse (powMod v r dhGroup.P) dhGroup.P % dhGroup.P
    .ok (pr.hash (x ++ dhGroup.Bytes v ++ dhGroup.Bytes z))

/-! ## Password registration (pwreg.go) -/

/-- Embedding of the server-side `User` record. -/
structure User where
  Username : String
  K : Nat
  V : Nat
  EnvU : List Nat
  PubU : Nat
deriving DecidableEq

/-- Embedding of `PwRegClientSession`. -/
structure PwRegClientSession where
  a : Nat
  r : Nat
  password : List Nat
  bits : Nat
deriving DecidableEq

/-- Embedding of `PwRegServerSession`. -/
structure PwRegServerSession where
  username : String
  k : Nat
  v : Nat
deriving DecidableEq

/-- Embedding of `PwRegMsg1` (client to server): username, the OPRF
blinding scalar R, and the blinded input A. -/
structure PwRegMsg1 where
  Username : String
  R : Nat
  A : Nat
deriving DecidableEq

/-- Embedding of `PwRegMsg2` (server to client). -/
structure PwRegMsg2 where
  V : Nat
  B : Nat
  PubS : Nat
deriving DecidableEq

/-- Embedding of `PwRegMsg3` (client to server). -/
structure PwRegMsg3 where
  EnvU : List Nat
  PubU : Nat
deriving DecidableEq

/-- Embedding of `PwRegInit` (client). `r` is the blinding scalar sampled
inside `dhOprf1`; `none` models the resampling loop. -/
def pwRegInit (pr : Prims) (username : String) (password : List Nat) (bits : Nat)
    (r : Nat) : Option (PwRegClientSession × PwRegMsg1) :=
  match dhOprf1 pr password r with
  | none => none
  | some (a, r) =>
    some ({ a := a, r := r, password := password, bits := bits },
          { Username := username, R := r, A := a })

/-- Embedding of `PwReg1` (server). `k` is the salt that `generateSalt`
samples. -/
def pwReg1 (pr : Prims) (privS : Nat) (msg1 : PwRegMsg1) (k : Nat) :
    Except OError (PwRegServerSession × PwRegMsg2) :=
  match dhOprf2 msg1.A k with
  | .error e => .error e
  | .ok (v, b) =>
    .ok ({ username := msg1.Username, k := k, v := v },
         { V := v, B := b, PubS := pr.pubOf privS })

/-- Embedding of `PwReg2` (client). `privU` is the RSA private key that
`rsa.GenerateKey` produces; `iv` is the randomness `AuthEnc` reads. -/
def pwReg2 (pr : Prims) (sess : PwRegClientSession) (msg2 : PwRegMsg2)
    (privU : Nat) (iv : List Nat) : Except OError PwRegMsg3 :=
  match dhOprf3 pr sess.password msg2.V msg2.B sess.r with
  | .error e => .error e
  | .ok rwdU =>
    let encodedEnvU := pr.encodeEnv privU msg2.PubS
    match authEnc pr iv (rwdU.take 16) encodedEnvU with
    | .error e => .error e
    | .ok encryptedEnvU => .ok { EnvU := encryptedEnvU, PubU := pr.pubOf privU }

/-- Embedding of `PwReg3` (server): build the `User` record from the
session and the received message; there is no error path. -/
def pwReg3 (sess : PwRegServerSession) (msg3 : PwRegMsg3) : User :=
  { Username := sess.username, K := sess.k, V := sess.v,
    EnvU := msg3.EnvU, PubU := msg3.PubU }

/-! ## Authentication (auth.go) -/

/-- Embedding of `AuthClientSession`. -/
structure AuthClientSession where
  x : Nat
  dhPubClient : Nat
  r : Nat
  password : List Nat
deriving DecidableEq

/-- Embedding of `AuthServerSession`. -/
structure AuthServerSession where
  y : Nat
  dhPubClient : Nat
  dhPubServer : Nat
  dhMacKey : List Nat
  dhSharedSecret : List Nat
  pubS : Nat
  user : User
deriving DecidableEq

/-- Embedding of `AuthMsg1` (client to server). -/
structure AuthMsg1 where
  Username : String
  A : Nat
  DhPubClient : Nat
deriving DecidableEq

/-- Embedding of `AuthMsg2` (server to client). -/
structure AuthMsg2 where
  V : Nat
  B : Nat
  EnvU : List Nat
  DhPubServer : Nat
  DhSig : List Nat
  DhMac : List Nat
deriving DecidableEq

/-- Embedding of `AuthMsg3` (client to server). -/
structure AuthMsg3 where
  DhSig : List Nat
  DhMac : List Nat
deriving DecidableEq

/-- Embedding of `dhSecrets`: HKDF on `dh.SharedSecret`, reading the
16-byte shared secret and then the 16-byte MAC key from the stream. -/
def dhSecrets (pr : Prims) (dhPriv dhPub : Nat) : List Nat × List Nat :=
  let kdf := pr.hkdf (sharedSecret pr dhGroup dhPriv dhPub) 32
  (kdf.take 16, kdf.drop 16)

/-- Embedding of `computeDhMac`: HMAC of the PEM encoding of the public key. -/
def computeDhMac (pr : Prims) (key : List Nat) (pk : Nat) : List Nat :=
  pr.hmac key (pr.pemPub pk)

/-- Embedding of `verifyDhMac`. -/
def verifyDhMac (pr : Prims) (key : List Nat) (pk : Nat) (origMac : List Nat) : Bool :=
  computeDhMac pr key pk == origMac

/-- Embedding of `AuthInit` (client). `r` is the OPRF blinding scalar and
`x` the ephemeral DH private key sampled by the Go code. -/
def authInit (pr : Prims) (username : String) (password : List Nat)
    (r x : Nat) : Option (AuthClientSession × AuthMsg1) :=
  match dhOprf1 pr password r with
  | none => none
  | some (a, r) =>
    let dhPubClient := generatePublicKey dhGroup x
    some ({ x := x, dhPubClient := dhPubClient, r := r, password := password },
          { Username := username, A := a, DhPubClient := dhPubClient })

/-- Embedding of `Auth1` (server). `y` is the ephemeral DH private key and
`sigTape` the randomness consumed by `rsa.SignPSS`. -/
def auth1 (pr : Prims) (privS : Nat) (user : User) (msg1 : AuthMsg1)
    (y : Nat) (sigTape : List Nat) : Except OError (AuthServerSession × AuthMsg2) :=
  match dhOprf2 msg1.A user.K with
  | .error e => .error e
  | .ok (v, b) =>
    let dhPubServer := generatePublicKey dhGroup y
    let digest := pr.hash (dhGroup.Bytes msg1.DhPubClient ++ dhGroup.Bytes dhPubServer)
    let sig := pr.rsaSign privS digest sigTape
    let secrets := dhSecrets pr y msg1.DhPubClient
    let dhMac := computeDhMac pr secrets.2 (pr.pubOf privS)
    .ok ({ y := y, dhPubClient := msg1.DhPubClient, dhPubServer := dhPubServer,
           dhMacKey := secrets.2, dhSharedSecret := secrets.1,
           pubS := pr.pubOf privS, user := user },
         { V := v, B := b, EnvU := user.EnvU, DhPubServer := dhPubServer,
           DhSig := sig, DhMac := dhMac })

/-- Embedding of `Auth2` (client). On success returns the shared secret
and the third message. `sigTape` is the randomness of the client
signature. -/
def auth2 (pr : Prims) (sess : AuthClientSession) (msg2 : AuthMsg2)
    (sigTape : List Nat) : Except OError (List Nat × AuthMsg3) :=
  match dhOprf3 pr sess.password msg2.V msg2.B sess.r with
  | .error e => .error e
  | .ok rwdU =>
    match authDec pr (rwdU.take 16) msg2.EnvU with
    | .error e => .error e
    | .ok encodedEnvU =>
      match pr.decodeEnv encodedEnvU with
      | none => .error .decodeFail
      | some (privU, pubS) =>
        let digest := pr.hash (dhGroup.Bytes sess.dhPubClient ++ dhGroup.Bytes msg2.DhPubServer)
        if ¬pr.rsaVerify pubS digest msg2.DhSig then .error .rsaVerifyFail
        else
          let secrets := dhSecrets pr sess.x msg2.DhPubServer
          if ¬verifyDhMac pr secrets.2 pubS msg2.DhMac then .error (.msg "MAC mismatch")
          else
            let sig := pr.rsaSign privU digest sigTape
            let mac := computeDhMac pr secrets.2 (pr.pubOf privU)
            .ok (secrets.1, { DhSig := sig, DhMac := mac })

/-- Embedding of `Auth3` (server): verify the client signature and MAC,
return the shared secret stored in the session. -/
def auth3 (pr : Prims) (sess : AuthServerSession) (msg3 : AuthMsg3) :
    Except OError (List Nat) :=
  let digest := pr.hash (dhGroup.Bytes sess.dhPubClient ++ dhGroup.Bytes sess.dhPubServer)
  if ¬pr.rsaVerify sess.user.PubU digest msg3.DhSig then .error .rsaVerifyFail
  else if ¬verifyDhMac pr sess.dhMacKey sess.user.PubU msg3.DhMac then .error (.msg "MAC mismatch")
  else .ok sess.dhSharedSecret

/-! ## Concrete primitives for witnesses

A computable instantiation of `Prims` used only to exhibit concrete runs
in witnesses and counterexamples. It satisfies every hypothesis the
theorems below place on the primitives: hash outputs have 32 bytes, the
HKDF stream returns as many bytes as requested, HMAC outputs have 32
bytes, the block cipher is a (trivial) length-preserving bijection,
verification accepts honestly produced signatures, and the envelope codec
round-trips. -/

/-- Concrete primitives for witnesses. -/
def testPrims : Prims where
  hash := fun m => List.replicate 32 (m.foldl (fun acc d => (acc + d) % 256) 0)
  hkdf := fun ikm n => (List.range n).map (fun i => (i + ikm.headD 0) % 256)
  hmac := fun _ _ => List.replicate 32 0
  aesEnc := fun _ blk => blk
  aesDec := fun _ blk => blk
  hashToGroupFn := fun _ => 3
  rsaSign := fun priv digest _ => priv :: digest
  rsaVerify := fun pub digest sig => sig == pub :: digest
  pubOf := fun n => n
  pemPub := fun n => [n]
  encodeEnv := fun privU pubS => [privU, pubS]
  decodeEnv := fun l =>
    match l with
    | [privU, pubS] => some (privU, pubS)
    | _ => none

/-! ## Concrete runs used by witnesses and counterexamples

The values below are one honest registration-then-authentication run under
`testPrims`, with blinding scalars 1 (registration) and 2
(authentication), salt 5, server RSA key 11, client RSA key 13, ephemeral
DH keys x = 2 and y = 3, and an all-zero IV. -/

/-- Witness password bytes. -/
def wPassword : List Nat := [7]

/-- Witness IV. -/
def wIv : List Nat := List.replicate 16 0

/-- Witness registration client session (output of `pwRegInit`). -/
def wCs : PwRegClientSession := { a := 6, r := 1, password := wPassword, bits := 512 }

/-- Witness registration message 1. -/
def wM1 : PwRegMsg1 := { Username := "user", R := 1, A := 6 }

/-- Witness registration server session (output of `pwReg1` with salt 5). -/
def wSs : PwRegServerSession := { username := "user", k := 5, v := 32 }

/-- Witness registration message 2. -/
def wM2 : PwRegMsg2 := { V := 32, B := 7776, PubS := 11 }

/-- Witness sealed envelope (output of `authEnc` inside `pwReg2`). -/
def wEnvU : List Nat :=
  List.replicate 16 0 ++ [13, 11] ++ List.replicate 14 14 ++ List.replicate 32 0

/-- Witness registration message 3. -/
def wM3 : PwRegMsg3 := { EnvU := wEnvU, PubU := 13 }

/-- Witness user record (output of `pwReg3`). -/
def wUser : User := { Username := "user", K := 5, V := 32, EnvU := wEnvU, PubU := 13 }

/-- Witness authentication client session. -/
def wAcs : AuthClientSession := { x := 2, dhPubClient := 4, r := 2, password := wPassword }

/-- Witness authentication message 1. -/
def wAm1 : AuthMsg1 := { Username := "user", A := 12, DhPubClient := 4 }

/-- Witness authentication server session. -/
def wAss : AuthServerSession :=
  { y := 3, dhPubClient := 4, dhPubServer := 8,
    dhMacKey := (List.range 16).map (fun i => 80 + i),
    dhSharedSecret := (List.range 16).map (fun i => 64 + i),
    pubS := 11, user := wUser }

/-- Witness authentication message 2. -/
def wAm2 : AuthMsg2 :=
  { V := 32, B := 248832, EnvU := wEnvU, DhPubServer := 8,
    DhSig := 11 :: List.replicate 32 12, DhMac := List.replicate 32 0 }

/-- Witness authentication message 3. -/
def wAm3 : AuthMsg3 := { DhSig := 13 :: List.replicate 32 12, DhMac := List.replicate 32 0 }

/-- Witness shared secret (both sides). -/
def wSecret : List Nat := (List.range 16).map (fun i => 64 + i)

/-- Witness key for the authenticated-encryption round trip. -/
def wKey : List Nat := List.replicate 16 5

/-- Witness plaintext for the authenticated-encryption round trip. -/
def wMsg : List Nat := [1, 2, 3]

/-- Witness ciphertext: the output of `authEnc testPrims wIv wKey wMsg`. -/
def wCipher : List Nat :=
  List.replicate 16 0 ++ ([1, 2, 3] ++ List.replicate 13 13) ++ List.replicate 32 0

/-- Primitives whose hash is the identity, used to compare the byte
strings fed to SHA-256 by `sharedSecret` and by the fixed-width variant
the specification describes. -/
def idHashPrims : Prims := { testPrims with hash := fun m => m }

/-- The salt (p-1)/2 used by the C4 counterexample: the order of every
quadratic residue divides (p-1)/2, so v = g^k becomes 1. -/
def qBig : Nat := (P2048 - 1) / 2

/-- First component (v) of `dhOprf2 6 qBig`. -/
def c4v : Nat :=
  match dhOprf2 6 qBig with
  | .ok (v, _) => v
  | .error _ => 0

/-- Second component (b) of `dhOprf2 6 qBig`. -/
def c4b : Nat :=
  match dhOprf2 6 qBig with
  | .ok (_, b) => b
  | .error _ => 0

/-! ## Correctness of the fuel-driven arithmetic -/

theorem powModFuel_eq (f : Nat) : ∀ b e m, e < 2 ^ f → powModFuel f b e m = b ^ e % m := by
  induction f with
  | zero =>
    intro b e m he
    have : e = 0 := by simpa using he
    simp [powModFuel, this]
  | succ f ih =>
    intro b e m he
    by_cases h0 : e = 0
    · simp [powModFuel, h0]
    · have hlt : e / 2 < 2 ^ f := by
        rw [pow_succ] at he
        omega
      rw [powModFuel]
      simp only [h0, if_false]
      rw [ih (b * b % m) (e / 2) m hlt]
      have hbb : (b * b % m) ^ (e / 2) % m = (b ^ 2) ^ (e / 2) % m := by
        rw [← Nat.pow_mod, sq]
      rw [hbb, ← pow_mul]
      by_cases hpar : e % 2 = 1
      · simp only [hpar, if_true]
        have h1 : b * (b ^ (2 * (e / 2)) % m) % m = b * b ^ (2 * (e / 2)) % m := by
          rw [Nat.mul_mod, Nat.mod_mod_of_dvd _ dvd_rfl, ← Nat.mul_mod]
        rw [h1, ← pow_succ']
        congr 2
        omega
      · simp only [hpar, if_false]
        congr 2
        omega

theorem powModB_eq (f : Nat) : ∀ b e m, e < 65536 ^ f → powModB f b e m = b ^ e % m := by
  induction f with
  | zero =>
    intro b e m he
    have : e = 0 := by simpa using he
    simp [powModB, this]
  | succ f ih =>
    intro b e m he
    by_cases h0 : e = 0
    · simp [powModB, h0]
    · have hlt : e / 65536 < 65536 ^ f := by
        rw [Nat.div_lt_iff_lt_mul (show (0:Nat) < 65536 by norm_num)]
        rw [pow_succ] at he
        exact he
      rw [powModB]
      simp only [h0, if_false]
      rw [ih _ (e / 65536) m hlt]
      rw [powModFuel_eq 17 b 65536 m (by norm_num)]
      rw [powModFuel_eq 17 b (e % 65536) m (by have := Nat.mod_lt e (y := 65536) (by norm_num); norm_num; omega)]
      have h1 : (b ^ 65536 % m) ^ (e / 65536) % m = b ^ (65536 * (e / 65536)) % m := by
        rw [← Nat.pow_mod, ← pow_mul]
      rw [h1, ← Nat.mul_mod, ← pow_add]
      congr 2
      omega

theorem powMod_correct (b e m : Nat) : powMod b e m = b ^ e % m := by
  refine powModB_eq (e + 1) b e m ?_
  calc e < 2 ^ e := Nat.lt_two_pow e
    _ ≤ 2 ^ (e + 1) := Nat.pow_le_pow_right (by norm_num) (by omega)
    _ ≤ 65536 ^ (e + 1) := Nat.pow_le_pow_left (by norm_num) _

theorem beVal_append_digit (l : List Nat) (d : Nat) : beVal (l ++ [d]) = beVal l * 256 + d := by
  simp [beVal, List.foldl_append]

theorem minBytesFuel_beVal (f : Nat) : ∀ n, n ≤ f → beVal (minBytesFuel f n) = n := by
  induction f with
  | zero =>
    intro n hn
    have : n = 0 := by omega
    simp [minBytesFuel, beVal, this]
  | succ f ih =>
    intro n hn
    by_cases h0 : n = 0
    · simp [minBytesFuel, beVal, h0]
    · have hdiv : n / 256 ≤ f := by
        have := Nat.div_lt_self (by omega : 0 < n) (by norm_num : 1 < 256)
        omega
      rw [minBytesFuel]
      simp only [h0, if_false]
      rw [beVal_append_digit, ih _ hdiv]
      omega

theorem beVal_minBytes (n : Nat) : beVal (minBytes n) = n :=
  minBytesFuel_beVal n n le_rfl

theorem minBytesFuel_length (f : Nat) :
    ∀ n k, n ≤ f → n < 256 ^ k → (minBytesFuel f n).length ≤ k := by
  induction f with
  | zero =>
    intro n k hn _
    have : n = 0 := by omega
    simp [minBytesFuel, this]
  | succ f ih =>
    intro n k hn hk
    by_cases h0 : n = 0
    · simp [minBytesFuel, h0]
    · cases k with
      | zero =>
        simp at hk
        omega
      | succ k =>
        have hdiv : n / 256 ≤ f := by
          have := Nat.div_lt_self (by omega : 0 < n) (by norm_num : 1 < 256)
          omega
        have hkk : n / 256 < 256 ^ k := by
          rw [Nat.div_lt_iff_lt_mul (by norm_num : (0:Nat) < 256)]
          rw [pow_succ] at hk
          exact hk
        rw [minBytesFuel]
        simp only [h0, if_false]
        rw [List.length_append]
        have := ih (n / 256) k hdiv hkk
        simp only [List.length_cons, List.length_nil]
        omega

theorem minBytes_length_le (n k : Nat) (h : n < 256 ^ k) : (minBytes n).length ≤ k :=
  minBytesFuel_length n n k le_rfl h

theorem beVal_replicate_zero (m : Nat) (l : List Nat) :
    beVal (List.replicate m 0 ++ l) = beVal l := by
  induction m with
  | zero => simp
  | succ m ih =>
    rw [List.replicate_succ, List.cons_append]
    show beVal (List.replicate m 0 ++ l) = beVal l
    exact ih

theorem egcdFuel_spec (f : Nat) :
    ∀ a b, a < f →
      (egcdFuel f a b).1 = Nat.gcd a b ∧
      (a : Int) * (egcdFuel f a b).2.1 + (b : Int) * (egcdFuel f a b).2.2
        = (Nat.gcd a b : Int) := by
  induction f with
  | zero =>
    intro a b ha
    omega
  | succ f ih =>
    intro a b ha
    by_cases h0 : a = 0
    · subst h0
      simp [egcdFuel]
    · have hb : b % a < f := by
        have := Nat.mod_lt b (by omega : 0 < a)
        omega
      obtain ⟨hg, hx⟩ := ih (b % a) a hb
      rw [egcdFuel]
      simp only [h0, if_false]
      have hgr : Nat.gcd a b = Nat.gcd (b % a) a := Nat.gcd_rec a b
      have hmod : ((b % a : Nat) : Int) = (b : Int) - (a : Int) * ((b / a : Nat) : Int) := by
        have h1 : b % a + a * (b / a) = b := Nat.mod_add_div b a
        have h2 : ((b % a : Nat) : Int) + (a : Int) * ((b / a : Nat) : Int) = (b : Int) := by
          exact_mod_cast h1
        linarith
      refine ⟨by simpa [hgr] using hg, ?_⟩
      rw [hgr]
      rw [hmod] at hx
      linear_combination hx

theorem egcd_spec (a b : Nat) :
    (egcd a b).1 = Nat.gcd a b ∧
    (a : Int) * (egcd a b).2.1 + (b : Int) * (egcd a b).2.2 = (Nat.gcd a b : Int) :=
  egcdFuel_spec (a + 1) a b (by omega)

theorem modInverse_mul (a n : Nat) (hn : 0 < n) (h : Nat.gcd a n = 1) :
    a * modInverse a n % n = 1 % n := by
  obtain ⟨_, hx⟩ := egcd_spec a n
  rw [h] at hx
  push_cast at hx
  set x := (egcd a n).2.1 with hxdef
  set y := (egcd a n).2.2 with hydef
  have hnz : (n : Int) ≠ 0 := by exact_mod_cast hn.ne'
  have hi0 : (0 : Int) ≤ (x % n + n) % n := Int.emod_nonneg _ hnz
  have hInt : (a : Int) * ((x % n + n) % n) % n = 1 % n := by
    have h1 : (a : Int) * ((x % n + n) % n) % n = (a : Int) * x % n := by
      rw [Int.mul_emod, Int.emod_emod_of_dvd _ dvd_rfl]
      have h2 : (x % n + n) % n = x % n := by
        have h5 : x % n + n = x % n + n * 1 := by ring
        rw [h5, Int.add_mul_emod_self_left, Int.emod_emod_of_dvd _ dvd_rfl]
      rw [h2, ← Int.mul_emod]
    have h3 : (a : Int) * x = 1 - (n : Int) * y := by linarith
    rw [h1, h3]
    have h4 : (1 : Int) - (n : Int) * y = 1 + (n : Int) * (-y) := by ring
    rw [h4, Int.add_mul_emod_self_left]
  have hcast : ((a * modInverse a n % n : Nat) : Int) = ((1 % n : Nat) : Int) := by
    push_cast
    rw [modInverse, ← hxdef, Int.toNat_of_nonneg hi0]
    exact_mod_cast hInt
  exact_mod_cast hcast

/-! ## Byte-string lemmas: XOR and PKCS#7 padding -/

theorem xorBytes_length (a b : List Nat) : (xorBytes a b).length = min a.length b.length := by
  simp [xorBytes]

theorem xorBytes_cancel : ∀ a b : List Nat, a.length ≤ b.length → xorBytes (xorBytes a b) b = a := by
  intro a
  induction a with
  | nil => intro b _; simp [xorBytes]
  | cons x xs ih =>
    intro b hb
    cases b with
    | nil => simp at hb
    | cons y ys =>
      simp only [xorBytes, List.zipWith_cons_cons]
      have hxy : (x ^^^ y) ^^^ y = x := by
        rw [Nat.xor_assoc, Nat.xor_self, Nat.xor_zero]
      rw [hxy]
      have := ih ys (by simpa using hb)
      simpa [xorBytes] using this

theorem addPadding_eq (blockSize : Nat) (input : List Nat) (hbs : 0 < blockSize) :
    addPadding blockSize input =
      input ++ List.replicate (blockSize - input.length % blockSize)
        (blockSize - input.length % blockSize) := by
  have h1 : blockSize * (input.length / blockSize) + input.length % blockSize
      = input.length := Nat.div_add_mod input.length blockSize
  have h2 : input.length % blockSize < blockSize := Nat.mod_lt _ hbs
  simp only [addPadding]
  congr 2
  rw [Nat.mul_succ]
  omega

theorem addPadding_length (blockSize : Nat) (input : List Nat) (hbs : 0 < blockSize) :
    (addPadding blockSize input).length = blockSize * (input.length / blockSize + 1) := by
  have h1 : blockSize * (input.length / blockSize) + input.length % blockSize
      = input.length := Nat.div_add_mod input.length blockSize
  have h2 : input.length % blockSize < blockSize := Nat.mod_lt _ hbs
  simp only [addPadding, List.length_append, List.length_replicate]
  rw [Nat.mul_succ]
  omega

theorem getLast?_replicate (n v : Nat) (h : n ≠ 0) :
    (List.replicate n v).getLast? = some v := by
  induction n with
  | zero => omega
  | succ n ih =>
    by_cases h0 : n = 0
    · subst h0
      rfl
    · rw [List.replicate_succ]
      cases hrep : List.replicate n v with
      | nil =>
        have := List.length_replicate n v
        rw [hrep] at this
        simp at this
        omega
      | cons z zs =>
        rw [List.getLast?_cons_cons]
        rw [← hrep, ih h0]

theorem removePadding_append_replicate (M : List Nat) (b : Nat)
    (hb1 : 1 ≤ b) (hb16 : b ≤ 16) (hmod : (M.length + b) % 16 = 0) :
    removePadding 16 (M ++ List.replicate b b) = some M := by
  have hlen : (M ++ List.replicate b b).length = M.length + b := by
    simp
  rw [removePadding]
  have hne : List.replicate b b ≠ [] := by
    intro hc
    have := List.length_replicate b b
    rw [hc] at this
    simp at this
    omega
  have hlast : (M ++ List.replicate b b).getLast? = some b := by
    rw [List.getLast?_append_of_ne_nil M hne, getLast?_replicate b b (by omega)]
  rw [hlen, hlast]
  simp only [hmod, ite_false, Option.getD_some]
  have hnz : ¬(M.length + b = 0) := by omega
  simp only [hnz, ite_false]
  have h16 : ¬(16 < b) := by omega
  simp only [h16, ite_false]
  have htake : M.length + b - b = M.length := by omega
  rw [htake]
  rw [List.take_left]
  simp

/-! ## CBC mode lemmas -/

theorem cbcEncFuel_congr (E : List Nat → List Nat) :
    ∀ f g prev pt, pt.length ≤ f → pt.length ≤ g →
      cbcEncFuel E f prev pt = cbcEncFuel E g prev pt := by
  intro f
  induction f with
  | zero =>
    intro g prev pt hf _
    have hpt : pt = [] := List.eq_nil_of_length_eq_zero (by omega)
    subst hpt
    cases g <;> simp [cbcEncFuel]
  | succ f ih =>
    intro g prev pt hf hg
    by_cases hpt : pt = []
    · subst hpt
      cases g <;> simp [cbcEncFuel]
    · have hlen : 0 < pt.length := List.length_pos.mpr hpt
      cases g with
      | zero => omega
      | succ g =>
        rw [cbcEncFuel, cbcEncFuel]
        simp only [if_neg hpt]
        congr 1
        exact ih g _ _ (by simp; omega) (by simp; omega)

theorem cbcEncFuel_length (E : List Nat → List Nat)
    (hE : ∀ blk : List Nat, blk.length = 16 → (E blk).length = 16) :
    ∀ f prev pt, pt.length ≤ f → prev.length = 16 → 16 ∣ pt.length →
      (cbcEncFuel E f prev pt).length = pt.length := by
  intro f
  induction f with
  | zero =>
    intro prev pt hf _ _
    have hpt : pt = [] := List.eq_nil_of_length_eq_zero (by omega)
    subst hpt
    simp [cbcEncFuel]
  | succ f ih =>
    intro prev pt hf hprev hdvd
    by_cases hpt : pt = []
    · subst hpt
      simp [cbcEncFuel]
    · have hlen : 0 < pt.length := List.length_pos.mpr hpt
      have h16 : 16 ≤ pt.length := by omega
      have htk : (pt.take 16).length = 16 := by simp; omega
      have hc : (E (xorBytes (pt.take 16) prev)).length = 16 := by
        apply hE
        rw [xorBytes_length, htk, hprev]
        simp
      rw [cbcEncFuel]
      simp only [if_neg hpt]
      rw [List.length_append, hc, ih _ (pt.drop 16) (by simp; omega) hc (by simp; omega)]
      simp
      omega

theorem cbcDecFuel_cbcEncFuel (E D : List Nat → List Nat)
    (hED : ∀ blk : List Nat, blk.length = 16 → D (E blk) = blk)
    (hE : ∀ blk : List Nat, blk.length = 16 → (E blk).length = 16) :
    ∀ f g prev pt, pt.length ≤ f → pt.length ≤ g → prev.length = 16 → 16 ∣ pt.length →
      cbcDecFuel D g prev (cbcEncFuel E f prev pt) = pt := by
  intro f
  induction f with
  | zero =>
    intro g prev pt hf _ _ _
    have hpt : pt = [] := List.eq_nil_of_length_eq_zero (by omega)
    subst hpt
    cases g <;> simp [cbcEncFuel, cbcDecFuel]
  | succ f ih =>
    intro g prev pt hf hg hprev hdvd
    by_cases hpt : pt = []
    · subst hpt
      cases g <;> simp [cbcEncFuel, cbcDecFuel]
    · have hlen : 0 < pt.length := List.length_pos.mpr hpt
      have h16 : 16 ≤ pt.length := by omega
      cases g with
      | zero => omega
      | succ g =>
        have htk : (pt.take 16).length = 16 := by simp; omega
        have hxlen : (xorBytes (pt.take 16) prev).length = 16 := by
          rw [xorBytes_length, htk, hprev]; simp
        have hc : (E (xorBytes (pt.take 16) prev)).length = 16 := hE _ hxlen
        rw [cbcEncFuel]
        simp only [if_neg hpt]
        rw [cbcDecFuel]
        have hne : E (xorBytes (pt.take 16) prev)
            ++ cbcEncFuel E f (E (xorBytes (pt.take 16) prev)) (pt.drop 16) ≠ [] := by
          intro hcontra
          have := congrArg List.length hcontra
          rw [List.length_append, hc] at this
          simp at this
        simp only [if_neg hne]
        rw [List.take_append_of_le_length (by omega : 16 ≤ (E (xorBytes (pt.take 16) prev)).length)]
        rw [List.drop_append_of_le_length (by omega : 16 ≤ (E (xorBytes (pt.take 16) prev)).length)]
        have htake_all : (E (xorBytes (pt.take 16) prev)).take 16 = E (xorBytes (pt.take 16) prev) := by
          rw [List.take_of_length_le (by omega)]
        have hdrop_all : (E (xorBytes (pt.take 16) prev)).drop 16 = [] := by
          rw [List.drop_of_length_le (by omega)]
        rw [htake_all, hdrop_all, List.nil_append]
        rw [hED _ hxlen]
        rw [xorBytes_cancel _ _ (by rw [htk, hprev])]
        rw [ih g _ (pt.drop 16) (by simp; omega) (by simp; omega) hc (by simp; omega)]
        exact List.take_append_drop 16 pt

theorem lastState_append (prev c X : List Nat) (hc : c.length = 16) (hX : 16 ∣ X.length) :
    lastState prev (c ++ X) = lastState c X := by
  by_cases hXnil : X = []
  · subst hXnil
    have hne : c ++ ([] : List Nat) ≠ [] := by
      apply List.ne_nil_of_length_pos
      rw [List.length_append, hc, List.length_nil]
      omega
    rw [lastState, lastState, if_neg hne, if_pos rfl]
    simp [hc]
  · have hXlen : 0 < X.length := List.length_pos.mpr hXnil
    have hX16 : 16 ≤ X.length := by omega
    have hne : c ++ X ≠ [] := by
      apply List.ne_nil_of_length_pos
      rw [List.length_append, hc]
      omega
    rw [lastState, lastState, if_neg hne, if_neg hXnil]
    have harith : (c ++ X).length - 16 = c.length + (X.length - 16) := by
      rw [List.length_append, hc]
      omega
    rw [harith, List.drop_append]

theorem cbcEncFuel_append (E : List Nat → List Nat)
    (hE : ∀ blk : List Nat, blk.length = 16 → (E blk).length = 16) :
    ∀ f u w prev, u.length ≤ f → prev.length = 16 → 16 ∣ u.length →
      cbcEncFuel E (u.length + w.length) prev (u ++ w)
        = cbcEncFuel E u.length prev u
          ++ cbcEncFuel E w.length
              (lastState prev (cbcEncFuel E u.length prev u)) w := by
  intro f
  induction f with
  | zero =>
    intro u w prev hf _ _
    have hu : u = [] := List.eq_nil_of_length_eq_zero (by omega)
    subst hu
    simp [cbcEncFuel, lastState]
  | succ f ih =>
    intro u w prev hf hprev hdvd
    by_cases hu : u = []
    · subst hu
      simp [cbcEncFuel, lastState]
    · have hlen : 0 < u.length := List.length_pos.mpr hu
      have h16 : 16 ≤ u.length := by omega
      have htk : (u.take 16).length = 16 := by
        rw [List.length_take]
        omega
      have hxlen : (xorBytes (u.take 16) prev).length = 16 := by
        rw [xorBytes_length, htk, hprev]
        simp
      have hc : (E (xorBytes (u.take 16) prev)).length = 16 := hE _ hxlen
      set c := E (xorBytes (u.take 16) prev) with hcdef
      have hsucc1 : u.length + w.length = (u.length + w.length - 1) + 1 := by omega
      have huw : u ++ w ≠ [] := by
        apply List.ne_nil_of_length_pos
        rw [List.length_append]
        omega
      have hLHS : cbcEncFuel E (u.length + w.length) prev (u ++ w)
          = c ++ cbcEncFuel E (u.length + w.length - 1) c (u.drop 16 ++ w) := by
        conv_lhs => rw [hsucc1]
        rw [cbcEncFuel]
        simp only [if_neg huw]
        rw [List.take_append_of_le_length h16, List.drop_append_of_le_length h16, ← hcdef]
      have hsucc2 : u.length = (u.length - 1) + 1 := by omega
      have hunfold : cbcEncFuel E u.length prev u
          = c ++ cbcEncFuel E (u.length - 1) c (u.drop 16) := by
        conv_lhs => rw [hsucc2]
        rw [cbcEncFuel]
        simp only [if_neg hu]
      have hfuel1 : cbcEncFuel E (u.length + w.length - 1) c (u.drop 16 ++ w)
          = cbcEncFuel E ((u.drop 16).length + w.length) c (u.drop 16 ++ w) := by
        apply cbcEncFuel_congr
        · rw [List.length_append, List.length_drop]
          omega
        · rw [List.length_append, List.length_drop]
      have hfuel2 : cbcEncFuel E (u.length - 1) c (u.drop 16)
          = cbcEncFuel E (u.drop 16).length c (u.drop 16) := by
        apply cbcEncFuel_congr
        · rw [List.length_drop]
          omega
        · exact Nat.le_refl _
      have hdl : (u.drop 16).length ≤ f := by
        rw [List.length_drop]
        omega
      have hdd : 16 ∣ (u.drop 16).length := by
        rw [List.length_drop]
        omega
      have hXdvd : 16 ∣ (cbcEncFuel E (u.drop 16).length c (u.drop 16)).length := by
        rw [cbcEncFuel_length E hE _ c (u.drop 16) (Nat.le_refl _) hc hdd]
        exact hdd
      rw [hLHS, hfuel1, ih (u.drop 16) w c hdl hc hdd, hunfold, hfuel2]
      rw [List.append_assoc]
      rw [lastState_append prev c _ hc hXdvd]

/-! ## Authenticated-encryption round trip -/

theorem authDec_parts (pr : Prims) (key iv CT tag M : List Nat)
    (hkey : key.length = 16) (hiv : iv.length = 16)
    (hCT : CT.length = M.length / 16 * 16 + 16)
    (htag : tag = pr.hmac ((pr.hkdf key 32).drop 16) (iv ++ CT))
    (htaglen : tag.length = 32)
    (hdec : cbcDec (pr.aesDec ((pr.hkdf key 32).take 16)) iv CT
        = M.take (M.length / 16 * 16) ++ addPadding 16 (M.drop (M.length / 16 * 16))) :
    authDec pr key (iv ++ CT ++ tag) = .ok M := by
  have hL : (iv ++ CT ++ tag).length = M.length / 16 * 16 + 64 := by
    simp only [List.length_append, hiv, hCT, htaglen]
    omega
  rw [authDec, if_neg (by simp [hkey])]
  rw [if_neg (by rw [hL]; omega)]
  rw [if_neg (by rw [hL]; omega)]
  simp only []
  rw [List.append_assoc]
  have htake16 : (iv ++ (CT ++ tag)).take 16 = iv := List.take_left' hiv
  have hdrop16 : (iv ++ (CT ++ tag)).drop 16 = CT ++ tag := List.drop_left' hiv
  have hlen48 : (iv ++ (CT ++ tag)).length - 48 = CT.length := by
    simp only [List.length_append, hiv, hCT, htaglen]
    omega
  have hlen32 : (iv ++ (CT ++ tag)).length - 32 = 16 + CT.length := by
    simp only [List.length_append, hiv, hCT, htaglen]
    omega
  rw [htake16, hdrop16, hlen48, hlen32]
  rw [List.take_left' rfl]
  have hdrop32 : (iv ++ (CT ++ tag)).drop (16 + CT.length) = tag := by
    rw [← List.append_assoc]
    refine List.drop_left' ?_
    simp [hiv]
  rw [hdrop32]
  rw [if_neg (not_not_intro htag.symm)]
  rw [hdec]
  set b := 16 - M.length % 16 with hb
  have hmlt : M.length % 16 < 16 := Nat.mod_lt _ (by norm_num)
  have hsplit : M.take (M.length / 16 * 16) ++ addPadding 16 (M.drop (M.length / 16 * 16))
      = M ++ List.replicate b b := by
    rw [addPadding_eq 16 _ (by norm_num)]
    have hdl : (M.drop (M.length / 16 * 16)).length = M.length % 16 := by
      rw [List.length_drop]
      omega
    have hbb : 16 - (M.drop (M.length / 16 * 16)).length % 16 = b := by
      rw [hdl, Nat.mod_eq_of_lt hmlt]
    rw [hbb, ← List.append_assoc, List.take_append_drop]
  rw [hsplit]
  rw [removePadding_append_replicate M b (by omega) (by omega) (by omega)]

theorem authEnc_ok_shape (pr : Prims) (key iv M c : List Nat)
    (henc : authEnc pr iv key M = .ok c) : key.length = 16 := by
  by_cases hkey : key.length = 16
  · exact hkey
  · rw [authEnc, if_pos hkey] at henc
    exact absurd henc (by simp)

theorem authEnc_authDec (pr : Prims) (key iv M c : List Nat)
    (hiv : iv.length = 16)
    (haes : ∀ k blk, blk.length = 16 → pr.aesDec k (pr.aesEnc k blk) = blk)
    (haeslen : ∀ k blk, blk.length = 16 → (pr.aesEnc k blk).length = 16)
    (htaglen : ∀ k m, (pr.hmac k m).length = 32)
    (henc : authEnc pr iv key M = .ok c) :
    authDec pr key c = .ok M := by
  have hkey : key.length = 16 := authEnc_ok_shape pr key iv M c henc
  rw [authEnc, if_neg (by simp [hkey])] at henc
  simp only [] at henc
  injection henc with hc
  subst hc
  have harith : (M.length / 16 + 1 - 1) * 16 = M.length / 16 * 16 := by omega
  rw [harith]
  set E := pr.aesEnc ((pr.hkdf key 32).take 16) with hE
  set n16 := M.length / 16 * 16 with hn16
  have hn16le : n16 ≤ M.length := Nat.div_mul_le_self M.length 16
  set fp := M.take n16 with hfp
  set lb := addPadding 16 (M.drop n16) with hlb
  set ct1 := cbcEnc E iv fp with hct1
  set ct2 := cbcEnc E (lastState iv ct1) lb with hct2
  have hElen : ∀ blk : List Nat, blk.length = 16 → (E blk).length = 16 :=
    fun blk h => haeslen _ blk h
  have hfpl : fp.length = n16 := by
    rw [hfp, List.length_take]
    omega
  have hfpd : 16 ∣ fp.length := by
    rw [hfpl, hn16]
    exact dvd_mul_left 16 (M.length / 16)
  have hdropl : (M.drop n16).length = M.length % 16 := by
    rw [List.length_drop]
    omega
  have hlbl : lb.length = 16 := by
    rw [hlb, addPadding_length 16 _ (by norm_num), hdropl]
    have : M.length % 16 < 16 := Nat.mod_lt _ (by norm_num)
    have h0 : M.length % 16 / 16 = 0 := Nat.div_eq_of_lt this
    rw [h0]
  have hCT : cbcEnc E iv (fp ++ lb) = ct1 ++ ct2 := by
    rw [cbcEnc, List.length_append]
    rw [cbcEncFuel_append E hElen fp.length fp lb iv (Nat.le_refl _) hiv hfpd]
    rw [hct1, hct2, cbcEnc, cbcEnc, hlbl, hct1, cbcEnc]
  have hfpllb : (fp ++ lb).length = n16 + 16 := by
    rw [List.length_append, hfpl, hlbl]
  have hfpllbd : 16 ∣ (fp ++ lb).length := by
    rw [hfpllb, hn16]
    omega
  have hCTlen : (ct1 ++ ct2).length = M.length / 16 * 16 + 16 := by
    rw [← hCT, cbcEnc]
    rw [cbcEncFuel_length E hElen _ iv (fp ++ lb) (Nat.le_refl _) hiv hfpllbd]
    rw [hfpllb, hn16]
  apply authDec_parts pr key iv (ct1 ++ ct2) _ M hkey hiv hCTlen rfl (htaglen _ _)
  rw [← hCT, cbcEnc, cbcDec]
  rw [cbcEncFuel_length E hElen _ iv (fp ++ lb) (Nat.le_refl _) hiv hfpllbd]
  exact cbcDecFuel_cbcEncFuel E _ (fun blk h => haes _ blk h) hElen
    (fp ++ lb).length (fp ++ lb).length iv (fp ++ lb)
    (Nat.le_refl _) (Nat.le_refl _) hiv hfpllbd

/-! ## DH-OPRF algebra -/

theorem coprime_mod_left {a n : Nat} (h : Nat.Coprime a n) : Nat.Coprime (a % n) n := by
  unfold Nat.Coprime at h ⊢
  rw [← Nat.gcd_rec, Nat.gcd_comm]
  exact h

theorem oprf_z_eq (h r k : Nat) :
    powMod ((h * powMod 2 r P2048) % P2048) k P2048
      * modInverse (powMod (powMod 2 k P2048) r P2048) P2048 % P2048
    = powMod h k P2048 := by
  have hP1 : 1 < P2048 := by norm_num [P2048]
  have hcop2 : Nat.Coprime 2 P2048 := by decide
  rw [powMod_correct, powMod_correct, powMod_correct, powMod_correct, powMod_correct]
  set P := P2048 with hPdef
  set w := ((2 ^ k % P) ^ r % P) with hw
  have hwcop : Nat.Coprime w P := by
    rw [hw]
    exact coprime_mod_left ((coprime_mod_left (hcop2.pow_left k)).pow_left r)
  have hinv : w * modInverse w P % P = 1 % P := modInverse_mul w P (by omega) hwcop
  have hinv' : ((w * modInverse w P : Nat) : ZMod P) = ((1 : Nat) : ZMod P) :=
    (ZMod.natCast_eq_natCast_iff _ _ _).mpr hinv
  rw [hw] at hinv'
  push_cast [ZMod.natCast_mod] at hinv'
  rw [Nat.mod_mul_mod]
  show Nat.ModEq P ((h * (2 ^ r % P) % P) ^ k * modInverse w P) (h ^ k)
  apply (ZMod.natCast_eq_natCast_iff _ _ _).mp
  push_cast [ZMod.natCast_mod]
  calc ((h : ZMod P) * (2 : ZMod P) ^ r) ^ k * ((modInverse w P : Nat) : ZMod P)
      = (h : ZMod P) ^ k * (((2 : ZMod P) ^ k) ^ r * ((modInverse w P : Nat) : ZMod P)) := by
        ring
    _ = (h : ZMod P) ^ k := by
        rw [hinv']
        ring

/-! ## Shape lemmas for the embedded protocol steps -/

theorem dhOprf1_eq {pr : Prims} {x : List Nat} {r a r' : Nat}
    (h : dhOprf1 pr x r = some (a, r')) :
    a = pr.hashToGroupFn x * powMod dhGroup.G r dhGroup.P % dhGroup.P ∧ r' = r
      ∧ isInSmallSubgroup a dhGroup.P = false := by
  rw [dhOprf1] at h
  split at h
  · exact absurd h (by simp)
  · next hsm =>
    injection h with h2
    injection h2 with ha hr
    rw [ha] at hsm
    exact ⟨ha.symm, hr.symm, Bool.eq_false_iff.mpr hsm⟩

theorem dhOprf2_eq {a k v b : Nat} (h : dhOprf2 a k = .ok (v, b)) :
    v = powMod dhGroup.G k dhGroup.P ∧ b = powMod a k dhGroup.P := by
  rw [dhOprf2] at h
  split at h
  · exact absurd h (by simp)
  · split at h
    · exact absurd h (by simp)
    · injection h with h2
      injection h2 with hv hb
      exact ⟨hv.symm, hb.symm⟩

theorem dhOprf3_eval {pr : Prims} {x : List Nat} {r k a v b : Nat}
    (h1 : dhOprf1 pr x r = some (a, r))
    (h2 : dhOprf2 a k = .ok (v, b))
    (hv1 : isInGroup v dhGroup.P = true) (hv2 : isInSmallSubgroup v dhGroup.P = false)
    (hb1 : isInGroup b dhGroup.P = true) (hb2 : isInSmallSubgroup b dhGroup.P = false) :
    dhOprf3 pr x v b r
      = .ok (pr.hash (x ++ dhGroup.Bytes v
          ++ dhGroup.Bytes (powMod (pr.hashToGroupFn x) k dhGroup.P))) := by
  obtain ⟨ha, -, -⟩ := dhOprf1_eq h1
  obtain ⟨hv, hb⟩ := dhOprf2_eq h2
  have hG : dhGroup.G = 2 := rfl
  have hP : dhGroup.P = P2048 := rfl
  have hz : b * modInverse (powMod v r dhGroup.P) dhGroup.P % dhGroup.P
      = powMod (pr.hashToGroupFn x) k dhGroup.P := by
    rw [hb, ha, hv, hG, hP]
    exact oprf_z_eq _ r k
  rw [dhOprf3, hv1, hv2, hb1, hb2]
  simp [hz]

theorem authInit_eq {pr : Prims} {u : String} {pw : List Nat} {r x : Nat}
    {acs : AuthClientSession} {am1 : AuthMsg1}
    (h : authInit pr u pw r x = some (acs, am1)) :
    acs.x = x ∧ am1.DhPubClient = generatePublicKey dhGroup x := by
  rw [authInit] at h
  split at h
  · exact absurd h (by simp)
  · injection h with h2
    injection h2 with hacs ham1
    subst hacs
    subst ham1
    exact ⟨rfl, rfl⟩

theorem auth1_eq {pr : Prims} {privS : Nat} {user : User} {msg1 : AuthMsg1}
    {y : Nat} {t : List Nat} {ass : AuthServerSession} {am2 : AuthMsg2}
    (h : auth1 pr privS user msg1 y t = .ok (ass, am2)) :
    ass.dhSharedSecret = (dhSecrets pr y msg1.DhPubClient).1
      ∧ ass.dhMacKey = (dhSecrets pr y msg1.DhPubClient).2
      ∧ am2.DhPubServer = generatePublicKey dhGroup y := by
  rw [auth1] at h
  split at h
  · exact absurd h (by simp)
  · injection h with h2
    injection h2 with hass ham2
    subst hass
    subst ham2
    exact ⟨rfl, rfl, rfl⟩

theorem auth2_secret {pr : Prims} {sess : AuthClientSession} {msg2 : AuthMsg2}
    {t secret : List Nat} {am3 : AuthMsg3}
    (h : auth2 pr sess msg2 t = .ok (secret, am3)) :
    secret = (dhSecrets pr sess.x msg2.DhPubServer).1 := by
  rw [auth2] at h
  split at h
  · exact absurd h (by simp)
  · split at h
    · exact absurd h (by simp)
    · split at h
      · exact absurd h (by simp)
      · simp only [] at h
        split at h
        · exact absurd h (by simp)
        · split at h
          · exact absurd h (by simp)
          · injection h with h2
            injection h2 with hsec _
            exact hsec.symm

theorem auth3_secret {pr : Prims} {sess : AuthServerSession} {msg3 : AuthMsg3}
    {s : List Nat} (h : auth3 pr sess msg3 = .ok s) :
    s = sess.dhSharedSecret := by
  rw [auth3] at h
  split at h
  · exact absurd h (by simp)
  · split at h
    · exact absurd h (by simp)
    · injection h with h2
      exact h2.symm

theorem dhSecrets_comm (pr : Prims) (x y : Nat) :
    dhSecrets pr x (generatePublicKey dhGroup y) = dhSecrets pr y (generatePublicKey dhGroup x) := by
  have key : ∀ s t : Nat, powMod (powMod dhGroup.G s dhGroup.P) t dhGroup.P
      = dhGroup.G ^ (s * t) % dhGroup.P := by
    intro s t
    rw [powMod_correct, powMod_correct, ← Nat.pow_mod, ← pow_mul]
  rw [dhSecrets, dhSecrets, sharedSecret, sharedSecret, generatePublicKey, generatePublicKey,
    key, key, Nat.mul_comm]

/-! ## Claim C1 -/

/-- C1: in a run of registration followed by authentication with the same
username and password (PwRegInit, PwReg1, PwReg2, PwReg3, AuthInit, Auth1,
Auth2, Auth3 all succeeding, every message delivered unmodified), the
secret that Auth2 returns on the client is a 16-byte value equal to the
secret that Auth3 returns on the server. The HKDF stream is assumed to
return as many bytes as requested. -/
theorem auth_secret_agreement
    (pr : Prims) (username : String) (password : List Nat) (bits : Nat)
    (privS privU k r0 r1 x y : Nat) (iv t1 t2 : List Nat)
    (cs : PwRegClientSession) (m1 : PwRegMsg1) (ss : PwRegServerSession)
    (m2 : PwRegMsg2) (m3 : PwRegMsg3)
    (acs : AuthClientSession) (am1 : AuthMsg1) (ass : AuthServerSession)
    (am2 : AuthMsg2) (secretC : List Nat) (am3 : AuthMsg3) (secretS : List Nat)
    (hkdfLen : ∀ ikm n, (pr.hkdf ikm n).length = n)
    (hreg0 : pwRegInit pr username password bits r0 = some (cs, m1))
    (hreg1 : pwReg1 pr privS m1 k = .ok (ss, m2))
    (hreg2 : pwReg2 pr cs m2 privU iv = .ok m3)
    (hauth0 : authInit pr username password r1 x = some (acs, am1))
    (hauth1 : auth1 pr privS (pwReg3 ss m3) am1 y t1 = .ok (ass, am2))
    (hauth2 : auth2 pr acs am2 t2 = .ok (secretC, am3))
    (hauth3 : auth3 pr ass am3 = .ok secretS) :
    secretC = secretS ∧ secretC.length = 16 := by
  obtain ⟨hax, hapub⟩ := authInit_eq hauth0
  obtain ⟨hshared, -, hserverpub⟩ := auth1_eq hauth1
  have hsecC := auth2_secret hauth2
  have hsecS := auth3_secret hauth3
  rw [hsecC, hsecS, hshared, hapub, hserverpub, hax]
  constructor
  · exact congrArg Prod.fst (dhSecrets_comm pr x y)
  · rw [dhSecrets]
    simp [hkdfLen]

set_option maxRecDepth 40000 in
/-- Witness for C1: the concrete honest run under `testPrims` (salt 5,
blinding scalars 1 and 2, ephemeral keys x = 2, y = 3) satisfies every
hypothesis of `auth_secret_agreement`, and both sides end with the
16-byte secret `wSecret`. -/
theorem auth_secret_agreement_witness : wSecret = wSecret ∧ wSecret.length = 16 :=
  auth_secret_agreement testPrims "user" wPassword 512 11 13 5 1 2 2 3 wIv [] []
    wCs wM1 wSs wM2 wM3 wAcs wAm1 wAss wAm2 wSecret wAm3 wSecret
    (by intro ikm n; simp [testPrims])
    (by decide) (by decide) (by decide) (by decide) (by decide) (by decide) (by decide)

/-! ## Claim C2 -/

/-- C2: for every 16-byte key K and every plaintext M, decrypting the
output of `AuthEnc` with the same key recovers M exactly, for any IV
produced by the random source. The AES block function is assumed to be
inverted by its decryption direction and length preserving, and HMAC
outputs are assumed to be 32 bytes (facts about the primitives outside
this repository). -/
theorem authenc_roundtrip (pr : Prims) (key iv M c : List Nat)
    (hiv : iv.length = 16)
    (haes : ∀ k blk, blk.length = 16 → pr.aesDec k (pr.aesEnc k blk) = blk)
    (haeslen : ∀ k blk, blk.length = 16 → (pr.aesEnc k blk).length = 16)
    (htaglen : ∀ k m, (pr.hmac k m).length = 32)
    (henc : authEnc pr iv key M = .ok c) :
    authDec pr key c = .ok M :=
  authEnc_authDec pr key iv M c hiv haes haeslen htaglen henc

set_option maxRecDepth 40000 in
/-- Witness for C2: under `testPrims`, encrypting `wMsg` with the 16-byte
key `wKey` and all-zero IV yields `wCipher`, and decryption recovers
`wMsg`. -/
theorem authenc_roundtrip_witness : authDec testPrims wKey wCipher = .ok wMsg :=
  authenc_roundtrip testPrims wKey wIv wMsg wCipher
    (by decide)
    (fun k blk _ => rfl)
    (fun k blk h => h)
    (fun k m => by simp [testPrims])
    (by decide)

/-! ## Claim C3 -/

set_option maxRecDepth 40000 in
/-- Counterexample to C3 as stated: already at privKey = 1, otherPubKey = 2
the byte string hashed by `sharedSecret` is the one-byte minimal encoding
[2] of the group element, not the 256-byte fixed-width encoding; with the
identity hash the two disagree, so `sharedSecret` does not return the hash
of the fixed-width encoding. -/
theorem sharedSecret_not_fixed_width :
    sharedSecret idHashPrims dhGroup 1 2 ≠ sharedSecretSpec idHashPrims dhGroup 1 2
      ∧ minBytes (powMod 2 1 dhGroup.P) ≠ dhGroup.Bytes (powMod 2 1 dhGroup.P) := by
  exact ⟨by decide, by decide⟩

/-- C3 amended: the Diffie-Hellman shared-secret function returns the hash
of the MINIMAL big-endian encoding (`big.Int.Bytes`, no left padding) of
otherPubKey^privKey mod p, and this hash value is the input key material
from which S_shared and S_mac are derived by `dhSecrets`. -/
theorem sharedSecret_minimal_encoding (pr : Prims) (g : DhGroup) (priv pub : Nat) :
    sharedSecret pr g priv pub = pr.hash (minBytes (pub ^ priv % g.P))
      ∧ dhSecrets pr priv pub
        = ((pr.hkdf (pr.hash (minBytes (pub ^ priv % dhGroup.P))) 32).take 16,
           (pr.hkdf (pr.hash (minBytes (pub ^ priv % dhGroup.P))) 32).drop 16) := by
  constructor
  · rw [sharedSecret, powMod_correct]
  · rw [dhSecrets, sharedSecret, powMod_correct]

/-! ## Claim C4 -/

set_option maxRecDepth 100000 in
/-- Counterexample to C4 as stated: the salt k = (p-1)/2 lies in [1, p-1],
`dhOprf1` succeeds (blinding r = 1, a = 6), `dhOprf2` succeeds, but since
2 is a quadratic residue mod p the returned v = g^k equals 1, and
`dhOprf3` rejects it with "v is in a small subgroup" instead of
succeeding. -/
theorem dhOprf3_small_salt_fails :
    1 ≤ qBig ∧ qBig ≤ P2048 - 1
      ∧ dhOprf1 testPrims wPassword 1 = some (6, 1)
      ∧ (dhOprf2 6 qBig).isOk = true
      ∧ dhOprf3 testPrims wPassword c4v c4b 1
          = .error (.msg "v is in a small subgroup") := by
  refine ⟨by decide, by decide, by decide, by decide, by decide⟩

/-- C4 amended: for every password x, salt k and blinding r for which
`dhOprf1` accepts a and the values v = g^k, b = a^k returned by `dhOprf2`
pass the group-membership and small-subgroup checks of `dhOprf3` (they
can fail: k = (p-1)/2 makes v = 1), `dhOprf3` succeeds and its output is
H(x ∥ encode(g^k) ∥ encode(H'(x)^k mod p)), which depends only on x and k
and is the same value for every choice of r. -/
theorem dhOprf_composition_stable (pr : Prims) (x : List Nat) (r k a v b : Nat)
    (h1 : dhOprf1 pr x r = some (a, r))
    (h2 : dhOprf2 a k = .ok (v, b))
    (hv1 : isInGroup v dhGroup.P = true) (hv2 : isInSmallSubgroup v dhGroup.P = false)
    (hb1 : isInGroup b dhGroup.P = true) (hb2 : isInSmallSubgroup b dhGroup.P = false) :
    dhOprf3 pr x v b r
      = .ok (pr.hash (x ++ dhGroup.Bytes v
          ++ dhGroup.Bytes (powMod (pr.hashToGroupFn x) k dhGroup.P))) :=
  dhOprf3_eval h1 h2 hv1 hv2 hb1 hb2

set_option maxRecDepth 40000 in
/-- Witness for C4 (amended): the registration numbers of the concrete run
(x = wPassword, r = 1, k = 5, a = 6, v = 32, b = 7776) satisfy all the
hypotheses, and the OPRF output is determined by x and k alone. -/
theorem dhOprf_composition_stable_witness :
    dhOprf3 testPrims wPassword 32 7776 1
      = .ok (testPrims.hash (wPassword ++ dhGroup.Bytes 32
          ++ dhGroup.Bytes (powMod (testPrims.hashToGroupFn wPassword) 5 dhGroup.P))) :=
  dhOprf_composition_stable testPrims wPassword 1 5 6 32 7776
    (by decide) (by decide) (by decide) (by decide) (by decide) (by decide)

/-! ## Claim C5 -/

/-- Counterexample to C5 as stated: for the 16-byte zero key and the empty
input (length 0 < 48), `AuthDec` fails with the distinct error value
"AuthDec: Input too short", not with `AuthtagMismatch`. -/
theorem authDec_short_input_not_authtag :
    authDec testPrims (List.replicate 16 0) [] = .error .tooShort
      ∧ OError.tooShort ≠ OError.authtagMismatch := by
  exact ⟨by decide, by decide⟩

/-- C5 amended: for every 16-byte key, `AuthDec` returns an error and no
plaintext in all three cases, but the error value is `AuthtagMismatch`
only for the HMAC failure: inputs shorter than 48 bytes fail with
"AuthDec: Input too short", inputs whose length is not a multiple of 16
fail with "AuthDec: Invalid input length", and well-sized inputs whose
recomputed HMAC over IV ∥ ciphertext differs from the trailing authtag
fail with `AuthtagMismatch`. -/
theorem authDec_error_cases (pr : Prims) (key C : List Nat)
    (hkey : key.length = 16) :
    (C.length < 48 → authDec pr key C = .error .tooShort)
    ∧ (48 ≤ C.length → C.length % 16 ≠ 0 → authDec pr key C = .error .invalidLen)
    ∧ (48 ≤ C.length → C.length % 16 = 0 →
        pr.hmac ((pr.hkdf key 32).drop 16)
            (C.take 16 ++ (C.drop 16).take (C.length - 48))
          ≠ C.drop (C.length - 32) →
        authDec pr key C = .error .authtagMismatch) := by
  refine ⟨?_, ?_, ?_⟩
  · intro h
    rw [authDec, if_neg (by simp [hkey]), if_pos (by omega)]
  · intro h1 h2
    rw [authDec, if_neg (by simp [hkey]), if_neg (by omega), if_pos h2]
  · intro h1 h2 hm
    rw [authDec, if_neg (by simp [hkey]), if_neg (by omega), if_neg (by omega)]
    simp only []
    rw [if_pos hm]

/-- Witness for C5 (amended): the three failure cases realized at concrete
inputs under `testPrims` (whose HMAC is the all-zero tag): the empty
input, a 49-byte input, and a 64-byte input whose trailing 32 bytes are
ones. -/
theorem authDec_error_cases_witness :
    authDec testPrims wKey [] = .error .tooShort
      ∧ authDec testPrims wKey (List.replicate 49 0) = .error .invalidLen
      ∧ authDec testPrims wKey (List.replicate 32 0 ++ List.replicate 32 1)
          = .error .authtagMismatch :=
  ⟨(authDec_error_cases testPrims wKey [] (by decide)).1 (by decide),
   (authDec_error_cases testPrims wKey (List.replicate 49 0) (by decide)).2.1
     (by decide) (by decide),
   (authDec_error_cases testPrims wKey (List.replicate 32 0 ++ List.replicate 32 1)
     (by decide)).2.2 (by decide) (by decide) (by decide)⟩

/-! ## Claim C6 -/

/-- C6: `dhOprf2` fails with "a is not in D-H group" exactly when a is not
strictly between 0 and p, otherwise fails with "a is in a small subgroup"
exactly when a = 1 or a^2 ≡ 1 (mod p), and otherwise succeeds with
v = g^k mod p and b = a^k mod p; in particular a = 0 yields the first
error and a = 1 the second. -/
theorem dhOprf2_checks (a k : Nat) :
    (dhOprf2 a k = .error (.msg "a is not in D-H group") ↔ ¬(0 < a ∧ a < P2048))
    ∧ (dhOprf2 a k = .error (.msg "a is in a small subgroup")
        ↔ ((0 < a ∧ a < P2048) ∧ (a = 1 ∨ a ^ 2 % P2048 = 1)))
    ∧ ((0 < a ∧ a < P2048) → ¬(a = 1 ∨ a ^ 2 % P2048 = 1)
        → dhOprf2 a k = .ok (powMod 2 k P2048, powMod a k P2048))
    ∧ dhOprf2 0 k = .error (.msg "a is not in D-H group")
    ∧ dhOprf2 1 k = .error (.msg "a is in a small subgroup") := by
  have hP : dhGroup.P = P2048 := rfl
  have hgb : (isInGroup a P2048 = true) ↔ (0 < a ∧ a < P2048) := by
    simp [isInGroup]
  have hsb : (isInSmallSubgroup a P2048 = true) ↔ (a = 1 ∨ a ^ 2 % P2048 = 1) := by
    simp [isInSmallSubgroup, powMod_correct]
  have inst0 : dhOprf2 0 k = .error (.msg "a is not in D-H group") := by
    rw [dhOprf2, if_pos (by decide)]
  have inst1 : dhOprf2 1 k = .error (.msg "a is in a small subgroup") := by
    rw [dhOprf2, if_neg (by decide), if_pos (by decide)]
  refine ⟨?_, ?_, ?_, inst0, inst1⟩
  · constructor
    · intro h
      intro hg
      rw [dhOprf2, hP, if_neg (by rw [hgb]; exact not_not_intro hg)] at h
      split at h
      · simp at h
      · exact absurd h (by simp)
    · intro hg
      rw [dhOprf2, hP, if_pos (by rw [hgb]; exact hg)]
  · constructor
    · intro h
      by_cases hg : 0 < a ∧ a < P2048
      · refine ⟨hg, ?_⟩
        rw [dhOprf2, hP, if_neg (by rw [hgb]; exact not_not_intro hg)] at h
        split at h
        · next hs => exact hsb.mp hs
        · exact absurd h (by simp)
      · rw [dhOprf2, hP, if_pos (by rw [hgb]; exact hg)] at h
        simp at h
    · rintro ⟨hg, hs⟩
      rw [dhOprf2, hP, if_neg (by rw [hgb]; exact not_not_intro hg),
        if_pos (by rw [hsb]; exact hs)]
  · intro hg hs
    rw [dhOprf2, hP, if_neg (by rw [hgb]; exact not_not_intro hg),
      if_neg (by rw [hsb]; exact hs)]
    rfl

/-- Witness for C6: the two distinguished inputs a = 0 and a = 1 produce
the two errors, and a valid a = 6 with salt 7 succeeds. -/
theorem dhOprf2_checks_witness :
    dhOprf2 0 7 = .error (.msg "a is not in D-H group")
      ∧ dhOprf2 1 7 = .error (.msg "a is in a small subgroup")
      ∧ dhOprf2 6 7 = .ok (powMod 2 7 P2048, powMod 6 7 P2048) :=
  ⟨(dhOprf2_checks 0 7).2.2.2.1,
   (dhOprf2_checks 1 7).2.2.2.2,
   (dhOprf2_checks 6 7).2.2.1 (by decide) (by decide)⟩

/-! ## Claim C7 -/

/-- C7: the processing of `PwReg1` on the server does not depend on the R
field of the received `PwRegMsg1` in any way: with identical randomness
(the salt k), the message with R replaced by any other scalar produces
the identical server session and identical `PwRegMsg2`. -/
theorem pwReg1_ignores_R (pr : Prims) (privS : Nat) (msg1 : PwRegMsg1) (k R' : Nat) :
    pwReg1 pr privS msg1 k
      = pwReg1 pr privS { Username := msg1.Username, R := R', A := msg1.A } k := rfl

/-! ## Claim C8 -/

/-- C8: the padding step appends n = 16 - (|M| mod 16) bytes, each of
value n: at least one byte is always added, the padded length is a
positive multiple of 16, and a full block of 0x10 bytes is appended when
|M| is already a multiple of 16. -/
theorem addPadding_spec (M : List Nat) :
    addPadding 16 M = M ++ List.replicate (16 - M.length % 16) (16 - M.length % 16)
      ∧ M.length < (addPadding 16 M).length
      ∧ (addPadding 16 M).length % 16 = 0
      ∧ 0 < (addPadding 16 M).length
      ∧ (M.length % 16 = 0 → addPadding 16 M = M ++ List.replicate 16 16) := by
  have he := addPadding_eq 16 M (by norm_num)
  have hl := addPadding_length 16 M (by norm_num)
  have hmod : M.length % 16 < 16 := Nat.mod_lt _ (by norm_num)
  refine ⟨he, ?_, ?_, ?_, ?_⟩
  · rw [hl, Nat.mul_succ]
    omega
  · rw [hl]
    omega
  · rw [hl]
    omega
  · intro h0
    rw [he, h0]

/-- Witness for C8: the full-block case at the empty message and the
ordinary case at a 3-byte message. -/
theorem addPadding_spec_witness :
    addPadding 16 ([] : List Nat) = List.replicate 16 16
      ∧ addPadding 16 [1, 2, 3] = [1, 2, 3] ++ List.replicate 13 13 := by
  constructor
  · have h := (addPadding_spec ([] : List Nat)).2.2.2.2 (by decide)
    simpa using h
  · have h := (addPadding_spec [1, 2, 3]).1
    simpa using h

/-! ## Claim C9 -/

set_option maxRecDepth 40000 in
/-- C9: for the RFC 3526 2048-bit group, the group encoding of any x is
the big-endian left-zero-padded representation of x mod p in exactly
ceil(bitlen/8) = 256 bytes: the length is always 256, independent of x,
and reading the bytes back as a big-endian number recovers x mod p. -/
theorem groupBytes_canonical (x : Nat) :
    (Rfc3526_2048.Bytes x).length = 256
      ∧ beVal (Rfc3526_2048.Bytes x) = x % P2048 := by
  have hbl : (bitLen Rfc3526_2048.P + 7) / 8 = 256 := by decide
  have hlt : x % P2048 < 256 ^ 256 := by
    have h1 : x % P2048 < P2048 := Nat.mod_lt _ (by norm_num [P2048])
    have h2 : P2048 < 256 ^ 256 := by norm_num [P2048]
    omega
  have hlen : (minBytes (x % P2048)).length ≤ 256 := minBytes_length_le _ _ hlt
  constructor
  · rw [DhGroup.Bytes]
    simp only [List.length_append, List.length_replicate]
    rw [hbl]
    have hx : x % Rfc3526_2048.P = x % P2048 := rfl
    rw [hx]
    omega
  · rw [DhGroup.Bytes]
    rw [beVal_replicate_zero, beVal_minBytes]
    rfl

/-! ## Claim C10 -/

/-- C10: `PwReg3` never fails and validates nothing: it is a total
function, and for every server session and every message (arbitrary EnvU
byte string, arbitrary PubU) the returned User takes Username, K and V
from the session and copies EnvU and PubU verbatim from the message. -/
theorem pwReg3_total_copy (sess : PwRegServerSession) (msg3 : PwRegMsg3) :
    (pwReg3 sess msg3).Username = sess.username
      ∧ (pwReg3 sess msg3).K = sess.k
      ∧ (pwReg3 sess msg3).V = sess.v
      ∧ (pwReg3 sess msg3).EnvU = msg3.EnvU
      ∧ (pwReg3 sess msg3).PubU = msg3.PubU := ⟨rfl, rfl, rfl, rfl, rfl⟩
